import Mathlib

/-!
Verification of the discovery / pairing / batch-orchestration core of
MotionPhotoMuxer (src/MotionPhotoMuxer.py) against its design document.

Paths are modelled as lists of name components (`Pth`); the filesystem as a
finite listing of entries, each a path together with a regular-file flag
(`isFile = false` models a directory or other non-regular entry).  The
pathlib `stem` / `suffix` split of a final name component is modelled at the
character level, following pathlib: the suffix starts at the last dot of the
name, provided that dot is neither the first nor the last character.

The external conversion collaborator (`motionphoto.create_motion_photo`) is
opaque in the source; it is modelled as an oracle `Conv` where `true` means
the call returns normally and `false` means it raises.  The orchestrator
`mainRun` mirrors `main`: it returns the trace of issued effects (conversion
invocations, the mkdir of the output directory, `shutil.copy2` metadata
preserving copies), the final set of processed files, and the outcome
(explicit `exit(1)`, an uncaught raised error, or normal completion).
-/

namespace MPM

/-- A filesystem path, as its list of name components. -/
abbrev Pth := List String

/-- Index of the last dot in a list of characters, if any. -/
def rfindDotAux : List Char → Option Nat
  | [] => none
  | c :: cs =>
    match rfindDotAux cs with
    | some j => some (j + 1)
    | none => if c = '.' then some 0 else none

/-- The pathlib split of a name into (stem, suffix): the suffix starts at the
last dot, provided that dot is neither first nor last character of the name. -/
def nameSplit (name : String) : String × String :=
  match rfindDotAux name.data with
  | some i =>
    if 0 < i ∧ i < name.data.length - 1
    then (⟨name.data.take i⟩, ⟨name.data.drop i⟩)
    else (name, "")
  | none => (name, "")

/-- Final name component of a path (pathlib `name`). -/
def lastComponent (p : Pth) : String := p.getLastD ""

/-- Pathlib `suffix` of a path. -/
def pathSuffix (p : Pth) : String := (nameSplit (lastComponent p)).2

/-- Pathlib `stem` of a path. -/
def pathStem (p : Pth) : String := (nameSplit (lastComponent p)).1

/-- Python `str.lower`, on the ASCII extensions this program compares. -/
def lowerStr (s : String) : String := ⟨s.data.map Char.toLower⟩

/-- A filesystem entry: a path plus whether it is a regular file. -/
structure Entry where
  path : Pth
  isFile : Bool
deriving DecidableEq

/-- A filesystem: the finite listing of its entries, in enumeration order. -/
abbrev FS := List Entry

/-- The paths of all entries of the filesystem. -/
def FS.paths (fs : FS) : List Pth := fs.map (·.path)

/-- Python `Path.exists` : some entry (of any kind) has this path. -/
def FS.existsAt (fs : FS) (p : Pth) : Bool := (FS.paths fs).contains p

/-- Python `Path.is_dir` : some non-regular-file entry has this path. -/
def FS.isDirAt (fs : FS) (p : Pth) : Bool :=
  fs.any (fun e => e.path == p && !e.isFile)

/-- Python `Path.is_file` : some regular-file entry has this path. -/
def FS.isFileAt (fs : FS) (p : Pth) : Bool :=
  fs.any (fun e => e.path == p && e.isFile)

/-- Python `Path.iterdir` : the direct children of a directory, in
enumeration order. -/
def iterdir (fs : FS) (root : Pth) : List Entry :=
  fs.filter (fun e => e.path.length == root.length + 1 && root.isPrefixOf e.path)

/-- Python `Path.rglob` applied to the pattern star: every proper descendant
entry of the directory, at any depth. -/
def rglobStar (fs : FS) (root : Pth) : List Entry :=
  fs.filter (fun e => root.length < e.path.length && root.isPrefixOf e.path)

/-- Source `validate_directory` (lines 10-16): `none` models `exit(1)`. -/
def validate_directory (fs : FS) (dir : Pth) : Option Unit :=
  if !(FS.existsAt fs dir) then none
  else if !(FS.isDirAt fs dir) then none
  else some ()

/-- The photo extensions of the source, lines 32 and 70. -/
def photoExtsPy : List String := [".jpg", ".jpeg"]

/-- The video extensions of the source, line 35. -/
def videoExtsPy : List String := [".mov", ".mp4"]

/-- Source `validate_media` (lines 18-38). -/
def validate_media (fs : FS) (photo_path video_path : Pth) : Bool :=
  if !(FS.existsAt fs photo_path) then false
  else if !(FS.existsAt fs video_path) then false
  else if !(photoExtsPy.contains (lowerStr (pathSuffix photo_path))) then false
  else if !(videoExtsPy.contains (lowerStr (pathSuffix video_path))) then false
  else true

/-- The candidate suffix tuple of source line 53, in its order. -/
def candidateExts : List String := [".mov", ".mp4", ".MOV", ".MP4"]

/-- The path denoted by the string `base + ext` of source lines 54-55, where
`base = str(photo_path.with_suffix(""))`: the final component becomes the
stem with `ext` appended. -/
def baseWithExt (photo : Pth) (ext : String) : Pth :=
  photo.dropLast ++ [pathStem photo ++ ext]

/-- Source line 52, `glob.glob(base + ".*")`: the existing entries in the
directory of the photo whose name starts with the stem followed by a dot. -/
def globBaseStar (fs : FS) (photo : Pth) : List Pth :=
  (FS.paths fs).filter (fun q =>
    q.dropLast == photo.dropLast &&
      (pathStem photo ++ ".").data.isPrefixOf (lastComponent q).data)

/-- Source `matching_video` (lines 49-56); `files` of line 52 is
`globBaseStar fs photo_path`, inlined into the candidate test of line 54; the
empty path models the `Path("")` no-match return value. -/
def matching_video (fs : FS) (photo_path : Pth) : Pth :=
  match candidateExts.find?
      (fun ext => (globBaseStar fs photo_path).contains (baseWithExt photo_path ext)) with
  | some ext => baseWithExt photo_path ext
  | none => []

/-- Source line 68: `rglob("*")` when recursing, else `iterdir()`. -/
def walkFiles (fs : FS) (file_dir : Pth) (recurse : Bool) : List Entry :=
  if recurse then rglobStar fs file_dir else iterdir fs file_dir

/-- Source `process_directory` (lines 58-75). -/
def process_directory (fs : FS) (file_dir : Pth) (recurse : Bool) :
    List (Pth × Pth) :=
  ((walkFiles fs file_dir recurse).filter (fun f =>
      f.isFile && photoExtsPy.contains (lowerStr (pathSuffix f.path)) &&
        !(matching_video fs f.path).isEmpty)).map
    (fun f => (f.path, matching_video fs f.path))

/-- An observable effect of the orchestrator: a conversion invocation, the
mkdir of the output directory, or a `shutil.copy2` metadata preserving copy. -/
inductive Eff where
  | convCall (photo video outdir : Pth)
  | mkdirCall (d : Pth)
  | copyCall (src dst : Pth)
deriving DecidableEq

/-- Whether an effect mutates the filesystem directly (mkdir or copy). -/
def Eff.isWrite : Eff → Bool
  | .convCall _ _ _ => false
  | _ => true

/-- Outcome of a run of `main`. -/
inductive MainOut where
  | exited (code : Nat)
  | raised
  | finished
deriving DecidableEq

/-- The opaque conversion collaborator: `true` models a call that returns
normally, `false` one that raises. -/
abbrev Conv := Pth → Pth → Pth → Bool

/-- The parsed command line arguments of the source, lines 114-127. -/
structure Args where
  dir : Option Pth
  recurse : Bool
  photo : Option Pth
  video : Option Pth
  output : Option Pth
  copyall : Bool

/-- Source line 82: the output directory defaults to `output`. -/
def outdirOf (args : Args) : Pth := args.output.getD ["output"]

/-- Source lines 88-92, the per-pair loop: validate, convert, then add both
paths to the processed set.  A raising conversion (third component `true`)
aborts the loop, as the exception is not caught. -/
def runPairsLoop (fs : FS) (conv : Conv) (outdir : Pth) :
    List (Pth × Pth) → Finset Pth → List Eff → List Eff × Finset Pth × Bool
  | [], processed, tr => (tr, processed, false)
  | pr :: rest, processed, tr =>
    if validate_media fs pr.1 pr.2 then
      if conv pr.1 pr.2 outdir then
        runPairsLoop fs conv outdir rest (insert pr.2 (insert pr.1 processed))
          (tr ++ [.convCall pr.1 pr.2 outdir])
      else (tr ++ [.convCall pr.1 pr.2 outdir], processed, true)
    else runPairsLoop fs conv outdir rest processed tr

/-- Source line 95: the regular files directly inside the root directory. -/
def directFilesList (fs : FS) (d : Pth) : List Pth :=
  ((iterdir fs d).filter (·.isFile)).map (·.path)

/-- Source line 96: the remaining files, as a list in enumeration order. -/
def remainingList (fs : FS) (d : Pth) (processed : Finset Pth) : List Pth :=
  (directFilesList fs d).filter (fun p => !(decide (p ∈ processed)))

/-- Source lines 98-105: mkdir of the output directory and the copies, only
when some file remains. -/
def copyallEffects (fs : FS) (d : Pth) (processed : Finset Pth) (outdir : Pth) :
    List Eff :=
  let remaining := remainingList fs d processed
  if remaining.length > 0 then
    Eff.mkdirCall outdir ::
      remaining.map (fun f => Eff.copyCall f (outdir ++ [lastComponent f]))
  else []

/-- Source `main` (lines 77-112): effect trace, processed set, outcome. -/
def mainRun (fs : FS) (conv : Conv) (args : Args) :
    List Eff × Finset Pth × MainOut :=
  let outdir := outdirOf args
  match args.dir with
  | some d =>
    match validate_directory fs d with
    | none => ([], ∅, .exited 1)
    | some _ =>
      let pairs := process_directory fs d args.recurse
      match runPairsLoop fs conv outdir pairs ∅ [] with
      | (tr, processed, true) => (tr, processed, .raised)
      | (tr, processed, false) =>
        if args.copyall then
          (tr ++ copyallEffects fs d processed outdir, processed, .finished)
        else (tr, processed, .finished)
  | none =>
    match args.photo, args.video with
    | some p, some v =>
      if validate_media fs p v then
        if conv p v outdir then ([.convCall p v outdir], ∅, .finished)
        else ([.convCall p v outdir], ∅, .raised)
      else ([], ∅, .finished)
    | _, _ => ([], ∅, .exited 1)

/-- Modelled from the spec (section 4.2): the Companion Resolver checks the
four candidate suffixes in order and returns the first that exists. -/
def findCompanionVideoSpec (fs : FS) (photo : Pth) : Pth :=
  match candidateExts.find? (fun ext => FS.existsAt fs (baseWithExt photo ext)) with
  | some ext => baseWithExt photo ext
  | none => []

/-! Helper lemmas about the name split. -/

lemma strData_eq_nil_iff {s : String} : s.data = [] ↔ s = "" := by
  constructor
  · intro h
    apply String.ext
    simpa using h
  · intro h
    subst h
    rfl

lemma rfindDotAux_append_dot (s : List Char) (u : List Char)
    (hu : ∀ c ∈ u, c ≠ '.') : rfindDotAux (s ++ '.' :: u) = some s.length := by
  induction s with
  | nil =>
    have hnone : rfindDotAux u = none := by
      induction u with
      | nil => rfl
      | cons c cs ih =>
        have hc : c ≠ '.' := hu c (by simp)
        have : rfindDotAux cs = none := ih (fun x hx => hu x (by simp [hx]))
        simp [rfindDotAux, this, hc]
    simp [rfindDotAux, hnone]
  | cons c cs ih =>
    simp [rfindDotAux, ih]

lemma strDataMk (l : List Char) : (String.mk l).data = l := rfl

lemma nameSplit_stem_ext (s : String) (u : List Char) (hs : s ≠ "")
    (hu : u ≠ []) (hd : ∀ c ∈ u, c ≠ '.') :
    nameSplit ⟨s.data ++ '.' :: u⟩ = (s, ⟨'.' :: u⟩) := by
  have hsd : s.data ≠ [] := fun h => hs (strData_eq_nil_iff.mp h)
  have hpos : 0 < s.data.length := List.length_pos.mpr hsd
  have hul : 0 < u.length := List.length_pos.mpr hu
  unfold nameSplit
  simp only [strDataMk, rfindDotAux_append_dot s.data u hd]
  rw [if_pos]
  · refine Prod.ext ?_ ?_
    · apply String.ext
      exact List.take_left s.data ('.' :: u)
    · apply String.ext
      exact List.drop_left s.data ('.' :: u)
  · refine ⟨hpos, ?_⟩
    simp only [List.length_append, List.length_cons]
    omega

lemma stem_ne_of_suffix_ne {n : String} (h : (nameSplit n).2 ≠ "") :
    (nameSplit n).1 ≠ "" := by
  unfold nameSplit at *
  cases hr : rfindDotAux n.data with
  | none => simp only [hr] at h; exact absurd rfl h
  | some i =>
    simp only [hr] at h ⊢
    by_cases hc : 0 < i ∧ i < n.data.length - 1
    · rw [if_pos hc] at h ⊢
      intro hst
      have ht : n.data.take i = [] := by
        have := congrArg String.data hst
        simpa using this
      rcases List.take_eq_nil_iff.mp ht with h0 | h0
      · omega
      · rw [h0] at hr
        simp [rfindDotAux] at hr
    · rw [if_neg hc] at h
      exact absurd rfl h

lemma pathSuffix_ne_empty_of_photoExt {p : Pth}
    (h : photoExtsPy.contains (lowerStr (pathSuffix p)) = true) :
    pathSuffix p ≠ "" := by
  intro he
  rw [he] at h
  simp [photoExtsPy, lowerStr] at h

lemma pathStem_ne_empty_of_photoExt {p : Pth}
    (h : photoExtsPy.contains (lowerStr (pathSuffix p)) = true) :
    pathStem p ≠ "" :=
  stem_ne_of_suffix_ne (pathSuffix_ne_empty_of_photoExt h)

/-! Helper lemmas about the companion resolver. -/

lemma lastComponent_baseWithExt (photo : Pth) (ext : String) :
    lastComponent (baseWithExt photo ext) = pathStem photo ++ ext := by
  simp [baseWithExt, lastComponent, List.getLastD_concat]

lemma dropLast_baseWithExt (photo : Pth) (ext : String) :
    (baseWithExt photo ext).dropLast = photo.dropLast := by
  simp [baseWithExt]

lemma mem_globBaseStar_base (fs : FS) (photo : Pth) {ext : String}
    (hext : ext ∈ candidateExts) :
    baseWithExt photo ext ∈ globBaseStar fs photo ↔
      baseWithExt photo ext ∈ FS.paths fs := by
  unfold globBaseStar
  rw [List.mem_filter]
  constructor
  · rintro ⟨h, -⟩
    exact h
  · intro h
    refine ⟨h, ?_⟩
    rw [Bool.and_eq_true]
    refine ⟨by simp [dropLast_baseWithExt], ?_⟩
    rw [ List.isPrefixOf_iff_prefix, lastComponent_baseWithExt]
    have : (pathStem photo ++ ".").data = (pathStem photo).data ++ ['.'] := rfl
    rw [this]
    have hx : (pathStem photo ++ ext).data = (pathStem photo).data ++ ext.data := rfl
    rw [hx, List.prefix_append_right_inj]
    fin_cases hext <;> decide

lemma contains_globBaseStar (fs : FS) (photo : Pth) {ext : String}
    (hext : ext ∈ candidateExts) :
    (globBaseStar fs photo).contains (baseWithExt photo ext) =
      FS.existsAt fs (baseWithExt photo ext) := by
  unfold FS.existsAt
  rw [Bool.eq_iff_iff]
  simp only [List.contains, List.elem_eq_mem, decide_eq_true_eq]
  exact mem_globBaseStar_base fs photo hext

lemma matching_video_eq_spec (fs : FS) (photo : Pth) :
    matching_video fs photo = findCompanionVideoSpec fs photo := by
  unfold matching_video findCompanionVideoSpec
  have h1 := @contains_globBaseStar fs photo ".mov" (by decide)
  have h2 := @contains_globBaseStar fs photo ".mp4" (by decide)
  have h3 := @contains_globBaseStar fs photo ".MOV" (by decide)
  have h4 := @contains_globBaseStar fs photo ".MP4" (by decide)
  simp only [candidateExts, List.find?_cons, List.find?_nil, h1, h2, h3, h4]

lemma matching_video_cases (fs : FS) (photo : Pth) :
    matching_video fs photo = [] ∨
      ∃ ext ∈ candidateExts, matching_video fs photo = baseWithExt photo ext := by
  unfold matching_video
  cases hf : candidateExts.find?
      (fun ext => (globBaseStar fs photo).contains (baseWithExt photo ext)) with
  | none => left; rfl
  | some ext => right; exact ⟨ext, List.mem_of_find?_eq_some hf, rfl⟩

lemma pathStem_baseWithExt {photo : Pth} {ext : String} (hext : ext ∈ candidateExts)
    (hs : pathStem photo ≠ "") :
    pathStem (baseWithExt photo ext) = pathStem photo := by
  show (nameSplit (lastComponent (baseWithExt photo ext))).1 = pathStem photo
  rw [lastComponent_baseWithExt]
  fin_cases hext
  · have he : pathStem photo ++ ".mov" =
        String.mk ((pathStem photo).data ++ '.' :: ['m', 'o', 'v']) := rfl
    rw [he, nameSplit_stem_ext (pathStem photo) ['m', 'o', 'v'] hs (by decide) (by decide)]
  · have he : pathStem photo ++ ".mp4" =
        String.mk ((pathStem photo).data ++ '.' :: ['m', 'p', '4']) := rfl
    rw [he, nameSplit_stem_ext (pathStem photo) ['m', 'p', '4'] hs (by decide) (by decide)]
  · have he : pathStem photo ++ ".MOV" =
        String.mk ((pathStem photo).data ++ '.' :: ['M', 'O', 'V']) := rfl
    rw [he, nameSplit_stem_ext (pathStem photo) ['M', 'O', 'V'] hs (by decide) (by decide)]
  · have he : pathStem photo ++ ".MP4" =
        String.mk ((pathStem photo).data ++ '.' :: ['M', 'P', '4']) := rfl
    rw [he, nameSplit_stem_ext (pathStem photo) ['M', 'P', '4'] hs (by decide) (by decide)]

/-! Helper lemmas about the pair collector. -/

lemma mem_process_directory {fs : FS} {d : Pth} {r : Bool} {p v : Pth} :
    (p, v) ∈ process_directory fs d r ↔
      ∃ e : Entry, e ∈ walkFiles fs d r ∧ e.path = p ∧ e.isFile = true ∧
        photoExtsPy.contains (lowerStr (pathSuffix p)) = true ∧
        matching_video fs p = v ∧ v ≠ [] := by
  unfold process_directory
  rw [List.mem_map]
  constructor
  · rintro ⟨e, he, heq⟩
    rw [List.mem_filter] at he
    obtain ⟨hmem, hcond⟩ := he
    have hp : e.path = p := congrArg Prod.fst heq
    have hv : matching_video fs e.path = v := congrArg Prod.snd heq
    rw [Bool.and_eq_true, Bool.and_eq_true] at hcond
    obtain ⟨⟨hfile, hphoto⟩, hne⟩ := hcond
    refine ⟨e, hmem, hp, hfile, hp ▸ hphoto, hp ▸ hv, ?_⟩
    intro hveq
    rw [hveq] at hv
    rw [hv] at hne
    simp at hne
  · rintro ⟨e, hmem, rfl, hfile, hphoto, hmv, hne⟩
    refine ⟨e, ?_, by rw [hmv]⟩
    rw [List.mem_filter]
    refine ⟨hmem, ?_⟩
    rw [Bool.and_eq_true, Bool.and_eq_true]
    refine ⟨⟨hfile, hphoto⟩, ?_⟩
    rw [hmv]
    simpa [List.isEmpty_iff] using hne

lemma pair_stem_parent {fs : FS} {d : Pth} {r : Bool} {p v : Pth}
    (h : (p, v) ∈ process_directory fs d r) :
    pathStem p = pathStem v ∧ p.dropLast = v.dropLast := by
  rcases mem_process_directory.mp h with ⟨e, -, rfl, -, hphoto, hmv, hne⟩
  rcases matching_video_cases fs e.path with h0 | ⟨ext, hext, hbe⟩
  · rw [h0] at hmv
    exact absurd hmv.symm hne
  · rw [hbe] at hmv
    subst hmv
    have hstem : pathStem e.path ≠ "" := pathStem_ne_empty_of_photoExt hphoto
    exact ⟨(pathStem_baseWithExt hext hstem).symm, (dropLast_baseWithExt e.path ext).symm⟩

/-! Helper lemmas about the batch loop. -/

/-- The pairs of a list that pass `validate_media`. -/
def validPairs (fs : FS) (l : List (Pth × Pth)) : List (Pth × Pth) :=
  l.filter (fun pr => validate_media fs pr.1 pr.2)

/-- All first and second components of a list of pairs, as a set. -/
def pairFiles (l : List (Pth × Pth)) : Finset Pth :=
  (l.map Prod.fst).toFinset ∪ (l.map Prod.snd).toFinset

lemma runPairsLoop_skip {fs : FS} {conv : Conv} {o : Pth} {pr : Pth × Pth}
    {rest : List (Pth × Pth)} {s : Finset Pth} {tr : List Eff}
    (h : validate_media fs pr.1 pr.2 = false) :
    runPairsLoop fs conv o (pr :: rest) s tr = runPairsLoop fs conv o rest s tr := by
  simp [runPairsLoop, h]

lemma runPairsLoop_step_ok {fs : FS} {conv : Conv} {o : Pth} {pr : Pth × Pth}
    {rest : List (Pth × Pth)} {s : Finset Pth} {tr : List Eff}
    (hv : validate_media fs pr.1 pr.2 = true) (hc : conv pr.1 pr.2 o = true) :
    runPairsLoop fs conv o (pr :: rest) s tr =
      runPairsLoop fs conv o rest (insert pr.2 (insert pr.1 s))
        (tr ++ [Eff.convCall pr.1 pr.2 o]) := by
  simp [runPairsLoop, hv, hc]

lemma runPairsLoop_step_raise {fs : FS} {conv : Conv} {o : Pth} {pr : Pth × Pth}
    {rest : List (Pth × Pth)} {s : Finset Pth} {tr : List Eff}
    (hv : validate_media fs pr.1 pr.2 = true) (hc : conv pr.1 pr.2 o = false) :
    runPairsLoop fs conv o (pr :: rest) s tr =
      (tr ++ [Eff.convCall pr.1 pr.2 o], s, true) := by
  simp [runPairsLoop, hv, hc]

lemma runPairsLoop_conv_ok {fs : FS} {conv : Conv} {o : Pth}
    (hconv : ∀ p v od, conv p v od = true) :
    ∀ (pairs : List (Pth × Pth)) (s : Finset Pth) (tr : List Eff),
      runPairsLoop fs conv o pairs s tr =
        (tr ++ (validPairs fs pairs).map (fun pr => Eff.convCall pr.1 pr.2 o),
          s ∪ pairFiles (validPairs fs pairs), false) := by
  intro pairs
  induction pairs with
  | nil => intro s tr; simp [runPairsLoop, validPairs, pairFiles]
  | cons pr rest ih =>
    intro s tr
    cases hv : validate_media fs pr.1 pr.2 with
    | false =>
      rw [runPairsLoop_skip hv, ih]
      simp [validPairs, List.filter_cons, hv]
    | true =>
      rw [runPairsLoop_step_ok hv (hconv pr.1 pr.2 o), ih]
      have hvp : validPairs fs (pr :: rest) = pr :: validPairs fs rest := by
        simp [validPairs, List.filter_cons, hv]
      rw [hvp]
      refine Prod.ext ?_ (Prod.ext ?_ rfl)
      · simp
      · show insert pr.2 (insert pr.1 s) ∪ pairFiles (validPairs fs rest) =
          s ∪ pairFiles (pr :: validPairs fs rest)
        ext x
        simp [pairFiles]

lemma runPairsLoop_trace_conv {fs : FS} {conv : Conv} {o : Pth} :
    ∀ (pairs : List (Pth × Pth)) (s : Finset Pth) (tr : List Eff) (e : Eff),
      e ∈ (runPairsLoop fs conv o pairs s tr).1 → e ∈ tr ∨ e.isWrite = false := by
  intro pairs
  induction pairs with
  | nil =>
    intro s tr e he
    left
    simpa [runPairsLoop] using he
  | cons pr rest ih =>
    intro s tr e he
    cases hv : validate_media fs pr.1 pr.2 with
    | false =>
      rw [runPairsLoop_skip hv] at he
      exact ih s tr e he
    | true =>
      cases hc : conv pr.1 pr.2 o with
      | true =>
        rw [runPairsLoop_step_ok hv hc] at he
        rcases ih _ _ e he with hin | hw
        · rcases List.mem_append.mp hin with hin | hin
          · exact Or.inl hin
          · right
            rcases List.mem_singleton.mp hin with rfl
            rfl
        · exact Or.inr hw
      | false =>
        rw [runPairsLoop_step_raise hv hc] at he
        rcases List.mem_append.mp he with hin | hin
        · exact Or.inl hin
        · right
          rcases List.mem_singleton.mp hin with rfl
          rfl

/-! Helper lemmas about the leftover reconciliation. -/

lemma mem_directFilesList {fs : FS} {d q : Pth} :
    q ∈ directFilesList fs d ↔ FS.isFileAt fs q = true ∧ ∃ x, q = d ++ [x] := by
  unfold directFilesList iterdir FS.isFileAt
  rw [List.mem_map]
  constructor
  · rintro ⟨e, he, rfl⟩
    rw [List.mem_filter] at he
    obtain ⟨he, hfile⟩ := he
    rw [List.mem_filter] at he
    obtain ⟨hmem, hcond⟩ := he
    rw [Bool.and_eq_true] at hcond
    obtain ⟨hlen, hpre⟩ := hcond
    refine ⟨List.any_eq_true.mpr ⟨e, hmem, by simp [hfile]⟩, ?_⟩
    rw [ List.isPrefixOf_iff_prefix] at hpre
    obtain ⟨t, ht⟩ := hpre
    rw [beq_iff_eq, ← ht, List.length_append] at hlen
    have : t.length = 1 := by omega
    obtain ⟨x, rfl⟩ := List.length_eq_one.mp this
    exact ⟨x, ht.symm⟩
  · rintro ⟨hany, x, rfl⟩
    rw [List.any_eq_true] at hany
    obtain ⟨e, hmem, hcond⟩ := hany
    rw [Bool.and_eq_true, beq_iff_eq] at hcond
    obtain ⟨hpath, hfile⟩ := hcond
    refine ⟨e, ?_, hpath⟩
    rw [List.mem_filter]
    refine ⟨?_, hfile⟩
    rw [List.mem_filter]
    refine ⟨hmem, ?_⟩
    rw [Bool.and_eq_true, beq_iff_eq, List.isPrefixOf_iff_prefix, hpath]
    exact ⟨by simp, List.prefix_append d [x]⟩

lemma mem_remainingList {fs : FS} {d q : Pth} {P : Finset Pth} :
    q ∈ remainingList fs d P ↔
      (FS.isFileAt fs q = true ∧ ∃ x, q = d ++ [x]) ∧ q ∉ P := by
  unfold remainingList
  rw [List.mem_filter]
  rw [mem_directFilesList]
  simp

lemma remainingList_toFinset (fs : FS) (d : Pth) (P : Finset Pth) :
    (remainingList fs d P).toFinset = (directFilesList fs d).toFinset \ P := by
  ext q
  simp [remainingList, List.mem_filter, Finset.mem_sdiff]

lemma copyallEffects_eq (fs : FS) (d : Pth) (P : Finset Pth) (o : Pth) :
    copyallEffects fs d P o =
      if remainingList fs d P = [] then []
      else Eff.mkdirCall o ::
        (remainingList fs d P).map (fun f => Eff.copyCall f (o ++ [lastComponent f])) := by
  unfold copyallEffects
  cases h : remainingList fs d P <;> simp [h]

/-! Helper lemmas about the orchestrator. -/

lemma mainRun_dir_conv_ok {fs : FS} {conv : Conv} {args : Args} {d : Pth}
    (hdir : args.dir = some d) (hval : validate_directory fs d = some ())
    (hconv : ∀ p v od, conv p v od = true) :
    mainRun fs conv args =
      ((validPairs fs (process_directory fs d args.recurse)).map
          (fun pr => Eff.convCall pr.1 pr.2 (outdirOf args))
        ++ (if args.copyall then
              copyallEffects fs d
                (pairFiles (validPairs fs (process_directory fs d args.recurse)))
                (outdirOf args)
            else []),
        pairFiles (validPairs fs (process_directory fs d args.recurse)),
        MainOut.finished) := by
  by_cases hca : args.copyall <;>
    simp [mainRun, hdir, hval, runPairsLoop_conv_ok hconv, hca]

lemma mainRun_dirmode_exit_iff {fs : FS} {conv : Conv} {args : Args} {d : Pth}
    (hdir : args.dir = some d) :
    (mainRun fs conv args).2.2 = MainOut.exited 1 ↔
      validate_directory fs d = none := by
  rcases hrp : runPairsLoop fs conv (outdirOf args)
      (process_directory fs d args.recurse) ∅ [] with ⟨tr, P, b⟩
  cases hv : validate_directory fs d with
  | none => simp [mainRun, hdir, hv]
  | some u =>
    cases u
    cases b <;> by_cases hca : args.copyall <;>
      simp [mainRun, hdir, hv, hrp, hca]

lemma mainRun_nodir_exit_iff {fs : FS} {conv : Conv} {args : Args}
    (hdir : args.dir = none) :
    (mainRun fs conv args).2.2 = MainOut.exited 1 ↔
      (args.photo = none ∨ args.video = none) := by
  cases hp : args.photo with
  | none => simp [mainRun, hdir, hp]
  | some p =>
    cases hv : args.video with
    | none => simp [mainRun, hdir, hp, hv]
    | some v =>
      by_cases hm : validate_media fs p v
      · by_cases hc : conv p v (outdirOf args) <;>
          simp [mainRun, hdir, hp, hv, hm, hc]
      · simp only [Bool.not_eq_true] at hm
        simp [mainRun, hdir, hp, hv, hm]

lemma validate_directory_none_iff {fs : FS} {d : Pth} :
    validate_directory fs d = none ↔
      (FS.existsAt fs d = false ∨ FS.isDirAt fs d = false) := by
  unfold validate_directory
  by_cases he : FS.existsAt fs d
  · by_cases hd : FS.isDirAt fs d <;> simp [he, hd]
  · simp only [Bool.not_eq_true] at he
    simp [he]

lemma mainRun_single_invalid {fs : FS} {conv : Conv} {args : Args} {p v : Pth}
    (hdir : args.dir = none) (hp : args.photo = some p) (hv : args.video = some v)
    (hm : validate_media fs p v = false) :
    mainRun fs conv args = ([], ∅, MainOut.finished) := by
  simp [mainRun, hdir, hp, hv, hm]

lemma photoExt_not_videoExt {s : String} (h : photoExtsPy.contains s = true) :
    videoExtsPy.contains s = false := by
  simp only [photoExtsPy, List.contains_cons, List.contains_nil, Bool.or_eq_true,
    beq_iff_eq] at h
  rcases h with h | h | h
  · subst h
    decide
  · subst h
    decide
  · exact absurd h (by decide)

/-! Concrete fixtures used by the witnesses and counterexamples. -/

/-- A collaborator whose invocations all return normally. -/
def convOk : Conv := fun _ _ _ => true

/-- A collaborator whose invocations all raise. -/
def convFail : Conv := fun _ _ _ => false

/-- The scenario directory of spec section 8 plus an `a.mp4` sibling. -/
def fsDemo : FS := [⟨["r"], false⟩, ⟨["r", "a.jpg"], true⟩, ⟨["r", "a.mov"], true⟩,
  ⟨["r", "a.mp4"], true⟩, ⟨["r", "b.jpeg"], true⟩, ⟨["r", "c.txt"], true⟩]

/-- Directory mode on `fsDemo` with copyall set. -/
def argsDemo : Args := ⟨some ["r"], false, none, none, none, true⟩

/-- Two valid pairs, to observe what a raising conversion does to the batch. -/
def fsRaise : FS := [⟨["r"], false⟩, ⟨["r", "a.jpg"], true⟩, ⟨["r", "a.mov"], true⟩,
  ⟨["r", "b.jpg"], true⟩, ⟨["r", "b.mov"], true⟩]

/-- Directory mode on `fsRaise`, no copyall. -/
def argsRaise : Args := ⟨some ["r"], false, none, none, none, false⟩

/-- A pair inside a subdirectory plus an unpaired direct child. -/
def fsRec : FS := [⟨["r"], false⟩, ⟨["r", "c.txt"], true⟩, ⟨["r", "s"], false⟩,
  ⟨["r", "s", "x.jpg"], true⟩, ⟨["r", "s", "x.mov"], true⟩]

/-- Recursive directory mode on `fsRec` with copyall set. -/
def argsRec : Args := ⟨some ["r"], true, none, none, none, true⟩

/-- A photo whose only companion candidate has mixed-case suffix `.Mov`. -/
def fsMixed : FS := [⟨["d"], false⟩, ⟨["d", "a.jpg"], true⟩, ⟨["d", "a.Mov"], true⟩]

/-- A photo whose companion entry `a.mov` is a directory, not a regular file. -/
def fsKind : FS := [⟨["d"], false⟩, ⟨["d", "a.jpg"], true⟩, ⟨["d", "a.mov"], false⟩]

/-- The same paths as `fsKind` with every entry a regular file. -/
def fsKindFiles : FS := [⟨["d"], true⟩, ⟨["d", "a.jpg"], true⟩, ⟨["d", "a.mov"], true⟩]

/-- Directory mode on `fsKind`, no copyall. -/
def argsKind : Args := ⟨some ["d"], false, none, none, none, false⟩

/-- A filesystem holding only the photo of the single-pair scenario. -/
def fsSingle : FS := [⟨["x.jpg"], true⟩]

/-- Single-pair mode with a video path that does not exist. -/
def argsSingle : Args := ⟨none, false, some ["x.jpg"], some ["y.mov"], none, false⟩

/-! The claims. -/

/-- C2: the Companion Resolver checks the candidate suffixes `.mov`, `.mp4`,
`.MOV`, `.MP4` in that fixed priority order against the entries matching
`base.*` in the photo directory and returns the first candidate that exists
(so `.mov` is preferred over `.mp4` when both exist, as in `fsDemo`); it
returns the no-match value when none of the four exist, and a companion with
mixed casing such as `.Mov` is never matched (as in `fsMixed`, where the
`.Mov` entry exists but the resolver returns no match). -/
theorem claim2_resolver_first_match :
    (∀ (fs : FS) (photo : Pth),
        matching_video fs photo = findCompanionVideoSpec fs photo) ∧
    matching_video fsDemo ["r", "a.jpg"] = ["r", "a.mov"] ∧
    FS.existsAt fsDemo ["r", "a.mp4"] = true ∧
    matching_video fsMixed ["d", "a.jpg"] = [] ∧
    FS.existsAt fsMixed ["d", "a.Mov"] = true :=
  ⟨matching_video_eq_spec, by decide, by decide, by decide, by decide⟩

/-- C3: the Pair Collector appends a pair exactly for the enumerated entries
that are regular files with a photo extension for which the resolver finds a
match, pairing them with that match; consequently no first element of a pair
has a video extension, and videos or unmatched photos are merely omitted. -/
theorem claim3_pair_collector :
    ∀ (fs : FS) (d : Pth) (r : Bool),
      (∀ p v : Pth, ((p, v) ∈ process_directory fs d r ↔
        ∃ e : Entry, e ∈ walkFiles fs d r ∧ e.path = p ∧ e.isFile = true ∧
          photoExtsPy.contains (lowerStr (pathSuffix p)) = true ∧
          matching_video fs p = v ∧ v ≠ [])) ∧
      (∀ pr ∈ process_directory fs d r,
        videoExtsPy.contains (lowerStr (pathSuffix pr.1)) = false) := by
  intro fs d r
  refine ⟨fun p v => mem_process_directory, fun pr hpr => ?_⟩
  rcases pr with ⟨p, v⟩
  rcases mem_process_directory.mp hpr with ⟨e, -, rfl, -, hphoto, -, -⟩
  exact photoExt_not_videoExt hphoto

/-- Closed instance of C3 at the demo directory: the pair of the scenario is
collected and its photo component does not carry a video extension. -/
theorem claim3_witness :
    ((["r", "a.jpg"], ["r", "a.mov"]) ∈ process_directory fsDemo ["r"] false) ∧
    videoExtsPy.contains (lowerStr (pathSuffix (["r", "a.jpg"] : Pth))) = false :=
  ⟨by decide,
    (claim3_pair_collector fsDemo ["r"] false).2 (["r", "a.jpg"], ["r", "a.mov"])
      (by decide)⟩

/-- C6: pair validation succeeds exactly when both paths exist and the
lower-cased extensions are a photo and a video extension respectively, and a
pair failing validation is skipped: the loop state (trace and processed set)
is exactly that of the remaining pairs, so no conversion is invoked for it,
nothing is added to the processed set, and the batch is not aborted. -/
theorem claim6_validation :
    (∀ (fs : FS) (p v : Pth), validate_media fs p v = true ↔
      (FS.existsAt fs p = true ∧ FS.existsAt fs v = true ∧
        photoExtsPy.contains (lowerStr (pathSuffix p)) = true ∧
        videoExtsPy.contains (lowerStr (pathSuffix v)) = true)) ∧
    (∀ (fs : FS) (conv : Conv) (o : Pth) (pr : Pth × Pth)
        (rest : List (Pth × Pth)) (s : Finset Pth) (tr : List Eff),
      validate_media fs pr.1 pr.2 = false →
        runPairsLoop fs conv o (pr :: rest) s tr = runPairsLoop fs conv o rest s tr) := by
  refine ⟨fun fs p v => ?_, fun fs conv o pr rest s tr h => runPairsLoop_skip h⟩
  unfold validate_media
  cases h1 : FS.existsAt fs p <;> cases h2 : FS.existsAt fs v <;>
    cases h3 : photoExtsPy.contains (lowerStr (pathSuffix p)) <;>
    cases h4 : videoExtsPy.contains (lowerStr (pathSuffix v)) <;>
    simp [h1, h2, h3, h4]

/-- Closed instance of C6: the single-pair scenario with a missing video
fails validation, and such a pair is dropped by the loop without effects. -/
theorem claim6_witness :
    validate_media fsSingle ["x.jpg"] ["y.mov"] = false ∧
    runPairsLoop fsSingle convOk ["output"] [(["x.jpg"], ["y.mov"])] ∅ [] =
      runPairsLoop fsSingle convOk ["output"] [] ∅ [] :=
  ⟨by decide,
    claim6_validation.2 fsSingle convOk ["output"] (["x.jpg"], ["y.mov"]) [] ∅ []
      (by decide)⟩

/-- C7: the run ends in `exit(1)` exactly when, in directory mode, the root
does not exist or is not a directory, or, in single-pair mode, the photo or
the video argument is missing; and a single-pair validation failure ends the
run normally with an empty effect trace (no conversion invoked). -/
theorem claim7_exit_status :
    (∀ (fs : FS) (conv : Conv) (args : Args) (d : Pth), args.dir = some d →
      ((mainRun fs conv args).2.2 = MainOut.exited 1 ↔
        (FS.existsAt fs d = false ∨ FS.isDirAt fs d = false))) ∧
    (∀ (fs : FS) (conv : Conv) (args : Args), args.dir = none →
      ((mainRun fs conv args).2.2 = MainOut.exited 1 ↔
        (args.photo = none ∨ args.video = none))) ∧
    (∀ (fs : FS) (conv : Conv) (args : Args) (p v : Pth),
      args.dir = none → args.photo = some p → args.video = some v →
      validate_media fs p v = false →
      mainRun fs conv args = ([], ∅, MainOut.finished)) :=
  ⟨fun _ _ _ _ hdir =>
      (mainRun_dirmode_exit_iff hdir).trans validate_directory_none_iff,
    fun _ _ _ hdir => mainRun_nodir_exit_iff hdir,
    fun _ _ _ _ _ hdir hp hv hm => mainRun_single_invalid hdir hp hv hm⟩

/-- Closed instance of C7: with an existing root directory the run does not
exit with status 1, and the single-pair scenario with a missing video file
completes normally without invoking a conversion. -/
theorem claim7_witness :
    ¬ (mainRun fsDemo convOk argsDemo).2.2 = MainOut.exited 1 ∧
    mainRun fsSingle convOk argsSingle = ([], ∅, MainOut.finished) :=
  ⟨fun h => by
      rcases (claim7_exit_status.1 fsDemo convOk argsDemo ["r"] rfl).mp h with h0 | h0 <;>
        exact absurd h0 (by decide),
    claim7_exit_status.2.2 fsSingle convOk argsSingle ["x.jpg"] ["y.mov"] rfl rfl rfl
      (by decide)⟩

/-- C8: every pair produced by the Pair Collector has equal photo and video
stems and the two paths share the same parent directory. -/
theorem claim8_pair_invariant :
    ∀ (fs : FS) (d : Pth) (r : Bool) (pr : Pth × Pth),
      pr ∈ process_directory fs d r →
      pathStem pr.1 = pathStem pr.2 ∧ pr.1.dropLast = pr.2.dropLast := by
  intro fs d r pr h
  rcases pr with ⟨p, v⟩
  exact pair_stem_parent h

/-- Closed instance of C8 at the demo directory pair. -/
theorem claim8_witness :
    pathStem (["r", "a.jpg"] : Pth) = pathStem (["r", "a.mov"] : Pth) ∧
    (["r", "a.jpg"] : Pth).dropLast = (["r", "a.mov"] : Pth).dropLast :=
  claim8_pair_invariant fsDemo ["r"] false (["r", "a.jpg"], ["r", "a.mov"]) (by decide)

/-- C9: neither companion resolution nor pair validation inspects whether the
companion entry is a regular file: both depend only on the entry paths of the
filesystem (they are invariant under changing every kind flag), and in
`fsKind`, whose `a.mov` entry is a directory, the resolver returns it, it
passes validation, and the orchestrator issues a conversion invocation on it. -/
theorem claim9_kind_blind :
    (∀ (fs fs2 : FS) (photo pv : Pth), FS.paths fs = FS.paths fs2 →
      matching_video fs photo = matching_video fs2 photo ∧
      validate_media fs photo pv = validate_media fs2 photo pv) ∧
    (matching_video fsKind ["d", "a.jpg"] = ["d", "a.mov"] ∧
      FS.isFileAt fsKind ["d", "a.mov"] = false ∧
      FS.existsAt fsKind ["d", "a.mov"] = true ∧
      validate_media fsKind ["d", "a.jpg"] ["d", "a.mov"] = true ∧
      Eff.convCall ["d", "a.jpg"] ["d", "a.mov"] ["output"] ∈
        (mainRun fsKind convOk argsKind).1) := by
  constructor
  · intro fs fs2 photo pv h
    constructor
    · unfold matching_video globBaseStar
      rw [h]
    · unfold validate_media FS.existsAt
      rw [h]
  · refine ⟨by decide, by decide, by decide, by decide, by decide⟩

/-- Closed instance of C9: the all-files variant of `fsKind` has the same
entry paths, hence the resolver and validation agree on the two. -/
theorem claim9_witness :
    matching_video fsKind ["d", "a.jpg"] = matching_video fsKindFiles ["d", "a.jpg"] ∧
    validate_media fsKind ["d", "a.jpg"] ["d", "a.mov"] =
      validate_media fsKindFiles ["d", "a.jpg"] ["d", "a.mov"] :=
  claim9_kind_blind.1 fsKind fsKindFiles ["d", "a.jpg"] ["d", "a.mov"] (by decide)

/-- C1 as stated is false on the code: in `fsRaise` both pairs are valid, yet
with a raising collaborator the run issues only the first conversion
invocation, adds neither of its paths to the processed set, and terminates by
propagating the error instead of continuing with the second pair. -/
theorem claim1_counterexample :
    mainRun fsRaise convFail argsRaise =
      ([Eff.convCall ["r", "a.jpg"] ["r", "a.mov"] ["output"]], ∅, MainOut.raised) ∧
    ¬ ((["r", "a.jpg"] : Pth) ∈ (mainRun fsRaise convFail argsRaise).2.1) ∧
    ¬ (Eff.convCall ["r", "b.jpg"] ["r", "b.mov"] ["output"] ∈
        (mainRun fsRaise convFail argsRaise).1) := by
  refine ⟨by decide, by decide, by decide⟩

/-- C1 corrected: for a pair that passes validation the conversion is
invoked; if the invocation returns normally, both paths are added to the
processed set and the loop continues with the remaining pairs; if it raises,
the loop terminates at once with the error: the pair paths are not added and
the remaining pairs are not processed. -/
theorem claim1_processed_marking :
    ∀ (fs : FS) (conv : Conv) (o : Pth) (pr : Pth × Pth)
      (rest : List (Pth × Pth)) (s : Finset Pth) (tr : List Eff),
      validate_media fs pr.1 pr.2 = true →
      (conv pr.1 pr.2 o = true →
        runPairsLoop fs conv o (pr :: rest) s tr =
          runPairsLoop fs conv o rest (insert pr.2 (insert pr.1 s))
            (tr ++ [Eff.convCall pr.1 pr.2 o])) ∧
      (conv pr.1 pr.2 o = false →
        runPairsLoop fs conv o (pr :: rest) s tr =
          (tr ++ [Eff.convCall pr.1 pr.2 o], s, true)) :=
  fun _ _ _ _ _ _ _ hv =>
    ⟨fun hc => runPairsLoop_step_ok hv hc, fun hc => runPairsLoop_step_raise hv hc⟩

/-- Closed instance of corrected C1: with a raising collaborator the loop on
the two valid pairs of `fsRaise` stops after the first invocation, with an
unchanged processed set. -/
theorem claim1_witness :
    runPairsLoop fsRaise convFail ["output"]
        [(["r", "a.jpg"], ["r", "a.mov"]), (["r", "b.jpg"], ["r", "b.mov"])] ∅ [] =
      ([Eff.convCall ["r", "a.jpg"] ["r", "a.mov"] ["output"]], ∅, true) :=
  (claim1_processed_marking fsRaise convFail ["output"]
      (["r", "a.jpg"], ["r", "a.mov"]) [(["r", "b.jpg"], ["r", "b.mov"])] ∅ []
      (by decide)).2 (by decide)

/-- C4: in directory mode with copyall, when the root validates and every
conversion returns, the processed set is that of the valid pairs, the
remaining list holds exactly the regular files that are direct children of
the root (whatever `recurse` was) and are not processed, and the run appends,
after the conversion calls, the mkdir of the output directory followed by one
metadata preserving copy per remaining file to the output directory under its
base name, or nothing at all when no file remains. -/
theorem claim4_leftover_copy :
    ∀ (fs : FS) (conv : Conv) (args : Args) (d : Pth),
      args.dir = some d → args.copyall = true →
      validate_directory fs d = some () → (∀ p v od, conv p v od = true) →
      ∃ P : Finset Pth,
        P = pairFiles (validPairs fs (process_directory fs d args.recurse)) ∧
        (∀ q : Pth, q ∈ remainingList fs d P ↔
          ((FS.isFileAt fs q = true ∧ ∃ x, q = d ++ [x]) ∧ q ∉ P)) ∧
        mainRun fs conv args =
          ((validPairs fs (process_directory fs d args.recurse)).map
              (fun pr => Eff.convCall pr.1 pr.2 (outdirOf args))
            ++ (if remainingList fs d P = [] then []
                else Eff.mkdirCall (outdirOf args) ::
                  (remainingList fs d P).map
                    (fun f => Eff.copyCall f (outdirOf args ++ [lastComponent f]))),
          P, MainOut.finished) := by
  intro fs conv args d hdir hca hval hconv
  refine ⟨pairFiles (validPairs fs (process_directory fs d args.recurse)), rfl,
    fun q => mem_remainingList, ?_⟩
  rw [mainRun_dir_conv_ok hdir hval hconv, hca]
  simp only [eq_self_iff_true, if_true]
  rw [copyallEffects_eq]

/-- Closed instance of C4 on the demo directory: one conversion, then mkdir
and the three leftover copies under their base names. -/
theorem claim4_witness :
    mainRun fsDemo convOk argsDemo =
      ([Eff.convCall ["r", "a.jpg"] ["r", "a.mov"] ["output"],
        Eff.mkdirCall ["output"],
        Eff.copyCall ["r", "a.mp4"] ["output", "a.mp4"],
        Eff.copyCall ["r", "b.jpeg"] ["output", "b.jpeg"],
        Eff.copyCall ["r", "c.txt"] ["output", "c.txt"]],
        {["r", "a.jpg"], ["r", "a.mov"]}, MainOut.finished) := by
  obtain ⟨P, hP, -, hmain⟩ :=
    claim4_leftover_copy fsDemo convOk argsDemo ["r"] rfl rfl (by decide)
      (fun _ _ _ => rfl)
  rw [hmain]
  subst hP
  decide

/-- C5 as stated is false on the code: in the recursive run on `fsRec` the
processed set holds the subdirectory pair, so the union of the computed
remaining set and the processed set is strictly larger than the set of
regular files that are direct children of the root (and no copy failed: the
only remaining file is copied). -/
theorem claim5_counterexample :
    (remainingList fsRec ["r"] (mainRun fsRec convOk argsRec).2.1).toFinset ∪
        (mainRun fsRec convOk argsRec).2.1 ≠
      (directFilesList fsRec ["r"]).toFinset := by
  decide

/-- C5 corrected: the computed remaining set is the set difference of the
direct-children regular files and the processed set, hence disjoint from the
processed set, and their union is the direct-children files together with the
processed set (equal to the direct-children files alone only when every
processed file is a direct child, which recursive runs need not satisfy). -/
theorem claim5_reconciliation :
    ∀ (fs : FS) (conv : Conv) (args : Args) (d : Pth),
      args.dir = some d → args.copyall = true →
      ((remainingList fs d (mainRun fs conv args).2.1).toFinset =
          (directFilesList fs d).toFinset \ (mainRun fs conv args).2.1 ∧
        (remainingList fs d (mainRun fs conv args).2.1).toFinset ∩
            (mainRun fs conv args).2.1 = ∅ ∧
        (remainingList fs d (mainRun fs conv args).2.1).toFinset ∪
            (mainRun fs conv args).2.1 =
          (directFilesList fs d).toFinset ∪ (mainRun fs conv args).2.1) := by
  intro fs conv args d _hdir _hca
  rw [remainingList_toFinset]
  exact ⟨rfl, Finset.sdiff_inter_self _ _, Finset.sdiff_union_self_eq_union⟩

/-- Closed instance of corrected C5 at the recursive run on `fsRec`. -/
theorem claim5_witness :
    (remainingList fsRec ["r"] (mainRun fsRec convOk argsRec).2.1).toFinset ∩
        (mainRun fsRec convOk argsRec).2.1 = ∅ ∧
    (remainingList fsRec ["r"] (mainRun fsRec convOk argsRec).2.1).toFinset ∪
        (mainRun fsRec convOk argsRec).2.1 =
      (directFilesList fsRec ["r"]).toFinset ∪ (mainRun fsRec convOk argsRec).2.1 :=
  ⟨(claim5_reconciliation fsRec convOk argsRec ["r"] rfl rfl).2.1,
    (claim5_reconciliation fsRec convOk argsRec ["r"] rfl rfl).2.2⟩

lemma mainRun_nodir_trace {fs : FS} {conv : Conv} {args : Args}
    (hdir : args.dir = none) :
    ∀ e ∈ (mainRun fs conv args).1, Eff.isWrite e = false := by
  intro e he
  cases hp : args.photo with
  | none => simp [mainRun, hdir, hp] at he
  | some p =>
    cases hv : args.video with
    | none => simp [mainRun, hdir, hp, hv] at he
    | some v =>
      by_cases hm : validate_media fs p v
      · by_cases hc : conv p v (outdirOf args) <;>
          simp [mainRun, hdir, hp, hv, hm, hc] at he <;> subst he <;> rfl
      · simp only [Bool.not_eq_true] at hm
        simp [mainRun, hdir, hp, hv, hm] at he

/-- C10: in every mode, the effect trace of the run splits into conversion
invocations followed by a write tail; the tail is empty unless copyall is set
in directory mode and some file remains, in which case it is exactly the
mkdir of the output directory followed by the leftover copies.  In
particular, the core never creates the output directory before a conversion
invocation, and without copyall, or in single-pair mode, it writes nothing. -/
theorem claim10_frame :
    ∀ (fs : FS) (conv : Conv) (args : Args),
      ∃ tr1 tr2 : List Eff,
        (mainRun fs conv args).1 = tr1 ++ tr2 ∧
        (∀ e ∈ tr1, Eff.isWrite e = false) ∧
        (tr2 = [] ∨
          (args.copyall = true ∧ ∃ d, args.dir = some d ∧
            remainingList fs d (mainRun fs conv args).2.1 ≠ [] ∧
            tr2 = Eff.mkdirCall (outdirOf args) ::
              (remainingList fs d (mainRun fs conv args).2.1).map
                (fun f => Eff.copyCall f (outdirOf args ++ [lastComponent f])))) := by
  intro fs conv args
  cases hdir : args.dir with
  | none =>
    exact ⟨(mainRun fs conv args).1, [], by simp, mainRun_nodir_trace hdir, Or.inl rfl⟩
  | some d =>
    cases hval : validate_directory fs d with
    | none =>
      refine ⟨[], [], ?_, by simp, Or.inl rfl⟩
      simp [mainRun, hdir, hval]
    | some u =>
      cases u
      rcases hrp : runPairsLoop fs conv (outdirOf args)
          (process_directory fs d args.recurse) ∅ [] with ⟨tr, P, b⟩
      have htr : ∀ e ∈ tr, Eff.isWrite e = false := by
        intro e he
        rcases runPairsLoop_trace_conv (process_directory fs d args.recurse) ∅ [] e
            (by rw [hrp]; exact he) with h0 | h0
        · simp at h0
        · exact h0
      cases b with
      | true =>
        have hmain : mainRun fs conv args = (tr, P, MainOut.raised) := by
          simp [mainRun, hdir, hval, hrp]
        exact ⟨tr, [], by rw [hmain]; simp, htr, Or.inl rfl⟩
      | false =>
        by_cases hca : args.copyall
        · have hmain : mainRun fs conv args =
              (tr ++ copyallEffects fs d P (outdirOf args), P, MainOut.finished) := by
            simp [mainRun, hdir, hval, hrp, hca]
          have hP21 : (mainRun fs conv args).2.1 = P := by rw [hmain]
          cases hrem : remainingList fs d P with
          | nil =>
            have hce : copyallEffects fs d P (outdirOf args) = [] := by
              rw [copyallEffects_eq, hrem]
              simp
            refine ⟨tr, [], ?_, htr, Or.inl rfl⟩
            rw [hmain, hce]
          | cons a l =>
            refine ⟨tr, copyallEffects fs d P (outdirOf args),
              by rw [hmain], htr, Or.inr ⟨hca, d, rfl, ?_, ?_⟩⟩
            · rw [hP21, hrem]
              simp
            · rw [hP21, copyallEffects_eq, hrem]
              simp
        · have hmain : mainRun fs conv args = (tr, P, MainOut.finished) := by
            simp [mainRun, hdir, hval, hrp, hca]
          exact ⟨tr, [], by rw [hmain]; simp, htr, Or.inl rfl⟩

/-- Closed instance of C10 at the demo run. -/
theorem claim10_witness :
    ∃ tr1 tr2 : List Eff,
      (mainRun fsDemo convOk argsDemo).1 = tr1 ++ tr2 ∧
      (∀ e ∈ tr1, Eff.isWrite e = false) ∧
      (tr2 = [] ∨
        (argsDemo.copyall = true ∧ ∃ d, argsDemo.dir = some d ∧
          remainingList fsDemo d (mainRun fsDemo convOk argsDemo).2.1 ≠ [] ∧
          tr2 = Eff.mkdirCall (outdirOf argsDemo) ::
            (remainingList fsDemo d (mainRun fsDemo convOk argsDemo).2.1).map
              (fun f => Eff.copyCall f (outdirOf argsDemo ++ [lastComponent f])))) :=
  claim10_frame fsDemo convOk argsDemo

end MPM
